import Mathlib

/-!
Verification of the sorted-vec library: `SortedVec`, `SortedSet`,
`ReverseSortedVec` and `ReverseSortedSet` from `src/lib.rs`, shallowly
embedded over `List Int`.  The backing `Vec<T>` is a `List Int`; each Rust
method becomes a pure function from the old backing list (and arguments) to
the new backing list together with the returned value.
-/

/-- Three-way comparison on `Int`: the model of `Ord::cmp` for integers
(`Less` when `a < b`, `Equal` when `a = b`, `Greater` otherwise). -/
def intCmp (a b : Int) : Ordering :=
  if a < b then Ordering.lt else if a = b then Ordering.eq else Ordering.gt

/-- The comparator `|x, y| x.cmp(y).reverse()` used by the reverse containers. -/
def revIntCmp (a b : Int) : Ordering :=
  (intCmp a b).swap

/-- The loop of Rust `core::slice::binary_search_by`, searching the index
range `[left, right)` of `v` with probe function `f` (the comparison of an
element against the target).  At each step the probe index is
`mid = left + (right - left) / 2`; `Less` moves `left` past `mid`, `Greater`
moves `right` down to `mid`, `Equal` returns `Ok mid`; an empty range returns
`Err left`, the insertion point. -/
def bsLoop (f : Int → Ordering) (v : List Int) (left right : Nat) :
    Except Nat Nat :=
  if _h : left < right then
    match f (v.getD (left + (right - left) / 2) 0) with
    | Ordering.lt => bsLoop f v (left + (right - left) / 2 + 1) right
    | Ordering.gt => bsLoop f v left (left + (right - left) / 2)
    | Ordering.eq => Except.ok (left + (right - left) / 2)
  else
    Except.error left
termination_by right - left
decreasing_by
  · omega
  · omega

/-- Rust `<[T]>::binary_search_by(f)`: search the whole list. -/
def binarySearchBy (f : Int → Ordering) (v : List Int) : Except Nat Nat :=
  bsLoop f v 0 v.length

/-- The `Ok (i) | Err (i) => i` pattern used by `insert`. -/
def searchIndex : Except Nat Nat → Nat
  | Except.ok i => i
  | Except.error i => i

/-- The `FindOrInsert` enum returned by `find_or_insert`. -/
inductive FindOrInsert : Type
  | Found : Nat → FindOrInsert
  | Inserted : Nat → FindOrInsert
deriving DecidableEq, Repr

/-- `FindOrInsert::index`: the carried position, in either case. -/
def FindOrInsert.index : FindOrInsert → Nat
  | FindOrInsert.Found i => i
  | FindOrInsert.Inserted i => i

/-- The `From<Result<usize, usize>>` conversion: `Ok ↦ Found`,
`Err ↦ Inserted`. -/
def FindOrInsert.ofResult : Except Nat Nat → FindOrInsert
  | Except.ok i => FindOrInsert.Found i
  | Except.error i => FindOrInsert.Inserted i

/-- Rust `Vec::dedup`: remove consecutive repeated elements, keeping the
first element of each run (each survivor is compared against the last
retained element). -/
def vecDedup : List Int → List Int
  | [] => []
  | [a] => [a]
  | a :: b :: rest =>
      if a = b then vecDedup (a :: rest) else a :: vecDedup (b :: rest)
termination_by l => l.length

/-- Rust `Vec::dedup_by_key(key)`: like `dedup` but comparing derived keys.
The key closure is modelled as a pure function `Int → Int`. -/
def vecDedupByKey (k : Int → Int) : List Int → List Int
  | [] => []
  | [a] => [a]
  | a :: b :: rest =>
      if k a = k b then vecDedupByKey k (a :: rest)
      else a :: vecDedupByKey k (b :: rest)
termination_by l => l.length

/-- Rust nightly `<[T]>::is_sorted` as used by `parse_vec`: every adjacent
pair is non-decreasing. -/
def isSortedAsc : List Int → Bool
  | [] => true
  | [_] => true
  | a :: b :: rest => decide (a ≤ b) && isSortedAsc (b :: rest)
termination_by l => l.length

/-- Rust `is_sorted_by (|x, y| Some (x.cmp (y).reverse()))` as used by
`parse_reverse_vec`: every adjacent pair is non-increasing. -/
def isSortedDesc : List Int → Bool
  | [] => true
  | [_] => true
  | a :: b :: rest => decide (b ≤ a) && isSortedDesc (b :: rest)
termination_by l => l.length

namespace SortedVec

/-- `SortedVec::binary_search (&x)` = `Vec::binary_search (&x)`:
probe `|y| y.cmp (&x)`. -/
def binary_search (v : List Int) (x : Int) : Except Nat Nat :=
  binarySearchBy (fun y => intCmp y x) v

/-- `SortedVec::insert`: binary-search for the position (found or not) and
insert there, returning the index. -/
def insert (v : List Int) (x : Int) : List Int × Nat :=
  let i := searchIndex (binary_search v x)
  (v.insertIdx i x, i)

/-- `SortedVec::find_or_insert`: on `Ok i` return `Found i` without mutating;
on `Err i` insert at `i` and return `Inserted i`. -/
def find_or_insert (v : List Int) (x : Int) : List Int × FindOrInsert :=
  match binary_search v x with
  | Except.ok i => (v, FindOrInsert.Found i)
  | Except.error i => (v.insertIdx i x, FindOrInsert.Inserted i)

/-- `SortedVec::remove_item`: binary-search; on `Ok i` remove index `i` and
return the removed element, else `None`. -/
def remove_item (v : List Int) (x : Int) : List Int × Option Int :=
  match binary_search v x with
  | Except.ok i => (v.eraseIdx i, some (v.getD i 0))
  | Except.error _ => (v, none)

/-- `SortedVec::remove_index` (Rust panics when `i ≥ len`; modelled for
in-bounds `i`). -/
def remove_index (v : List Int) (i : Nat) : List Int × Int :=
  (v.eraseIdx i, v.getD i 0)

/-- `SortedVec::pop` = `Vec::pop`. -/
def pop (v : List Int) : List Int × Option Int :=
  (v.dropLast, v.getLast?)

/-- `SortedVec::dedup` = `Vec::dedup`. -/
def dedup (v : List Int) : List Int :=
  vecDedup v

/-- `SortedVec::dedup_by_key` = `Vec::dedup_by_key`. -/
def dedup_by_key (v : List Int) (k : Int → Int) : List Int :=
  vecDedupByKey k v

/-- `SortedVec::retain` = `Vec::retain`. -/
def retain (v : List Int) (p : Int → Bool) : List Int :=
  v.filter p

/-- `SortedVec::from_unsorted`: `vec.sort_unstable()`.  `sort_unstable` is
modelled by `mergeSort` under `≤`: on `Int` the order is antisymmetric, so
every sort produces the same (unique) sorted permutation. -/
def from_unsorted (v : List Int) : List Int :=
  v.mergeSort (fun a b => decide (a ≤ b))

/-- `SortedVec::mutate_vec`: run the closure on the backing vector, re-sort
with `sort_unstable()`, return the closure's result. -/
def mutate_vec {O : Type} (v : List Int) (f : List Int → List Int × O) :
    List Int × O :=
  ((f v).1.mergeSort (fun a b => decide (a ≤ b)), (f v).2)

end SortedVec

namespace SortedSet

/-- `SortedSet::from_unsorted`: `SortedVec::from_unsorted` then `dedup()`. -/
def from_unsorted (v : List Int) : List Int :=
  vecDedup (SortedVec.from_unsorted v)

/-- `SortedSet::insert`: `remove_item (&element)` then the underlying
`SortedVec::insert`. -/
def insert (v : List Int) (x : Int) : List Int × Nat :=
  SortedVec.insert (SortedVec.remove_item v x).1 x

/-- `SortedSet::find_or_insert`: delegates to `SortedVec::find_or_insert`. -/
def find_or_insert (v : List Int) (x : Int) : List Int × FindOrInsert :=
  SortedVec.find_or_insert v x

/-- `SortedSet::remove_item`: delegates. -/
def remove_item (v : List Int) (x : Int) : List Int × Option Int :=
  SortedVec.remove_item v x

/-- `SortedSet::remove_index`: delegates. -/
def remove_index (v : List Int) (i : Nat) : List Int × Int :=
  SortedVec.remove_index v i

/-- `SortedSet::pop`: delegates. -/
def pop (v : List Int) : List Int × Option Int :=
  SortedVec.pop v

/-- `SortedSet::retain`: delegates. -/
def retain (v : List Int) (p : Int → Bool) : List Int :=
  SortedVec.retain v p

/-- `SortedSet::mutate_vec`: the underlying `SortedVec::mutate_vec`
followed by `dedup()`. -/
def mutate_vec {O : Type} (v : List Int) (f : List Int → List Int × O) :
    List Int × O :=
  (vecDedup (SortedVec.mutate_vec v f).1, (SortedVec.mutate_vec v f).2)

end SortedSet

namespace ReverseSortedVec

/-- `ReverseSortedVec::binary_search (&x)`:
`binary_search_by (|y| y.cmp (&x).reverse())`. -/
def binary_search (v : List Int) (x : Int) : Except Nat Nat :=
  binarySearchBy (fun y => (intCmp y x).swap) v

/-- `ReverseSortedVec::insert`. -/
def insert (v : List Int) (x : Int) : List Int × Nat :=
  let i := searchIndex (binary_search v x)
  (v.insertIdx i x, i)

/-- `ReverseSortedVec::find_or_insert`. -/
def find_or_insert (v : List Int) (x : Int) : List Int × FindOrInsert :=
  match binary_search v x with
  | Except.ok i => (v, FindOrInsert.Found i)
  | Except.error i => (v.insertIdx i x, FindOrInsert.Inserted i)

/-- `ReverseSortedVec::remove_item`:
`binary_search_by (|other| other.cmp (&item).reverse())` then remove. -/
def remove_item (v : List Int) (x : Int) : List Int × Option Int :=
  match binary_search v x with
  | Except.ok i => (v.eraseIdx i, some (v.getD i 0))
  | Except.error _ => (v, none)

/-- `ReverseSortedVec::remove_index` (panics when out of bounds). -/
def remove_index (v : List Int) (i : Nat) : List Int × Int :=
  (v.eraseIdx i, v.getD i 0)

/-- `ReverseSortedVec::pop`. -/
def pop (v : List Int) : List Int × Option Int :=
  (v.dropLast, v.getLast?)

/-- `ReverseSortedVec::dedup`. -/
def dedup (v : List Int) : List Int :=
  vecDedup v

/-- `ReverseSortedVec::dedup_by_key`. -/
def dedup_by_key (v : List Int) (k : Int → Int) : List Int :=
  vecDedupByKey k v

/-- `ReverseSortedVec::retain`. -/
def retain (v : List Int) (p : Int → Bool) : List Int :=
  v.filter p

/-- `ReverseSortedVec::from_unsorted`:
`vec.sort_unstable_by (|x, y| x.cmp (y).reverse())`, modelled by `mergeSort`
under the boolean "reversed comparator is not Greater". -/
def from_unsorted (v : List Int) : List Int :=
  v.mergeSort (fun a b => decide ((intCmp a b).swap ≠ Ordering.gt))

/-- `ReverseSortedVec::mutate_vec`: run the closure, re-sort with the
reversed comparator, return the closure's result. -/
def mutate_vec {O : Type} (v : List Int) (f : List Int → List Int × O) :
    List Int × O :=
  ((f v).1.mergeSort (fun a b => decide ((intCmp a b).swap ≠ Ordering.gt)),
   (f v).2)

end ReverseSortedVec

namespace ReverseSortedSet

/-- `ReverseSortedSet::from_unsorted`: `ReverseSortedVec::from_unsorted`
then `dedup()`. -/
def from_unsorted (v : List Int) : List Int :=
  vecDedup (ReverseSortedVec.from_unsorted v)

/-- `ReverseSortedSet::insert`: `remove_item (&element)` then the underlying
`ReverseSortedVec::insert`. -/
def insert (v : List Int) (x : Int) : List Int × Nat :=
  ReverseSortedVec.insert (ReverseSortedVec.remove_item v x).1 x

/-- `ReverseSortedSet::find_or_insert`: delegates. -/
def find_or_insert (v : List Int) (x : Int) : List Int × FindOrInsert :=
  ReverseSortedVec.find_or_insert v x

/-- `ReverseSortedSet::remove_item`: delegates. -/
def remove_item (v : List Int) (x : Int) : List Int × Option Int :=
  ReverseSortedVec.remove_item v x

/-- `ReverseSortedSet::remove_index`: delegates. -/
def remove_index (v : List Int) (i : Nat) : List Int × Int :=
  ReverseSortedVec.remove_index v i

/-- `ReverseSortedSet::pop`: delegates. -/
def pop (v : List Int) : List Int × Option Int :=
  ReverseSortedVec.pop v

/-- `ReverseSortedSet::retain`: delegates. -/
def retain (v : List Int) (p : Int → Bool) : List Int :=
  ReverseSortedVec.retain v p

/-- `ReverseSortedSet::mutate_vec`: underlying `mutate_vec` then `dedup()`. -/
def mutate_vec {O : Type} (v : List Int) (f : List Int → List Int × O) :
    List Int × O :=
  (vecDedup (ReverseSortedVec.mutate_vec v f).1,
   (ReverseSortedVec.mutate_vec v f).2)

end ReverseSortedSet

/-- `parse_vec` (serde deserializer for `SortedVec`): deserialize the raw
sequence, fail when it is not sorted, otherwise accept it exactly as given.
The already-deserialized sequence is the input here. -/
def parse_vec (v : List Int) : Except String (List Int) :=
  if !(isSortedAsc v) then Except.error "input sequence is not sorted"
  else Except.ok v

/-- `parse_reverse_vec` (serde deserializer for `ReverseSortedVec`). -/
def parse_reverse_vec (v : List Int) : Except String (List Int) :=
  if !(isSortedDesc v) then Except.error "input sequence is not reverse sorted"
  else Except.ok v

namespace CmpGeneric

/-- Modelled from the spec (§4.3, §9): the forward container's
`binary_search` parameterized over the comparator; the reverse variant is
the same algorithm driven by the inverted comparator. -/
def binary_search (cmp : Int → Int → Ordering) (v : List Int) (x : Int) :
    Except Nat Nat :=
  binarySearchBy (fun y => cmp y x) v

/-- Modelled from the spec: generic-comparator `insert`. -/
def insert (cmp : Int → Int → Ordering) (v : List Int) (x : Int) :
    List Int × Nat :=
  let i := searchIndex (binary_search cmp v x)
  (v.insertIdx i x, i)

/-- Modelled from the spec: generic-comparator `find_or_insert`. -/
def find_or_insert (cmp : Int → Int → Ordering) (v : List Int) (x : Int) :
    List Int × FindOrInsert :=
  match binary_search cmp v x with
  | Except.ok i => (v, FindOrInsert.Found i)
  | Except.error i => (v.insertIdx i x, FindOrInsert.Inserted i)

/-- Modelled from the spec: generic-comparator `remove_item`. -/
def remove_item (cmp : Int → Int → Ordering) (v : List Int) (x : Int) :
    List Int × Option Int :=
  match binary_search cmp v x with
  | Except.ok i => (v.eraseIdx i, some (v.getD i 0))
  | Except.error _ => (v, none)

/-- Modelled from the spec: generic-comparator `from_unsorted` (sort by
the comparator). -/
def from_unsorted (cmp : Int → Int → Ordering) (v : List Int) : List Int :=
  v.mergeSort (fun a b => decide (cmp a b ≠ Ordering.gt))

/-- Modelled from the spec: generic-comparator `mutate_vec`. -/
def mutate_vec {O : Type} (cmp : Int → Int → Ordering) (v : List Int)
    (f : List Int → List Int × O) : List Int × O :=
  ((f v).1.mergeSort (fun a b => decide (cmp a b ≠ Ordering.gt)), (f v).2)

/-- Modelled from the spec: generic-comparator set `insert`
(remove-then-reinsert). -/
def set_insert (cmp : Int → Int → Ordering) (v : List Int) (x : Int) :
    List Int × Nat :=
  insert cmp (remove_item cmp v x).1 x

/-- Modelled from the spec: generic-comparator set `from_unsorted`
(bulk sort then dedup). -/
def set_from_unsorted (cmp : Int → Int → Ordering) (v : List Int) :
    List Int :=
  vecDedup (from_unsorted cmp v)

/-- Modelled from the spec: generic-comparator set `mutate_vec`
(re-sort then dedup). -/
def set_mutate_vec {O : Type} (cmp : Int → Int → Ordering) (v : List Int)
    (f : List Int → List Int × O) : List Int × O :=
  (vecDedup (mutate_vec cmp v f).1, (mutate_vec cmp v f).2)

end CmpGeneric

/-- The mutating calls of claim C1 that `SortedVec` / `ReverseSortedVec`
expose (beyond the `mutate_vec` escape hatch, treated separately). -/
inductive VecOp : Type
  | insert : Int → VecOp
  | remove_item : Int → VecOp
  | remove_index : Nat → VecOp
  | pop : VecOp
  | dedup : VecOp
  | dedup_by_key : (Int → Int) → VecOp
  | retain : (Int → Bool) → VecOp

/-- The mutating calls of claim C1 that the unique containers
(`SortedSet` / `ReverseSortedSet`) expose (they have no `dedup` /
`dedup_by_key` methods). -/
inductive SetOp : Type
  | insert : Int → SetOp
  | remove_item : Int → SetOp
  | remove_index : Nat → SetOp
  | pop : SetOp
  | retain : (Int → Bool) → SetOp

/-- One `SortedVec` call.  An out-of-bounds `remove_index` panics in Rust
(no post-state); `List.eraseIdx` is the identity there, which is what the
invariant claim needs. -/
def SortedVec.step (v : List Int) : VecOp → List Int
  | VecOp.insert x => (SortedVec.insert v x).1
  | VecOp.remove_item x => (SortedVec.remove_item v x).1
  | VecOp.remove_index i => (SortedVec.remove_index v i).1
  | VecOp.pop => (SortedVec.pop v).1
  | VecOp.dedup => SortedVec.dedup v
  | VecOp.dedup_by_key k => SortedVec.dedup_by_key v k
  | VecOp.retain p => SortedVec.retain v p

/-- A sequence of `SortedVec` calls. -/
def SortedVec.run (v : List Int) (ops : List VecOp) : List Int :=
  ops.foldl SortedVec.step v

/-- One `ReverseSortedVec` call. -/
def ReverseSortedVec.step (v : List Int) : VecOp → List Int
  | VecOp.insert x => (ReverseSortedVec.insert v x).1
  | VecOp.remove_item x => (ReverseSortedVec.remove_item v x).1
  | VecOp.remove_index i => (ReverseSortedVec.remove_index v i).1
  | VecOp.pop => (ReverseSortedVec.pop v).1
  | VecOp.dedup => ReverseSortedVec.dedup v
  | VecOp.dedup_by_key k => ReverseSortedVec.dedup_by_key v k
  | VecOp.retain p => ReverseSortedVec.retain v p

/-- A sequence of `ReverseSortedVec` calls. -/
def ReverseSortedVec.run (v : List Int) (ops : List VecOp) : List Int :=
  ops.foldl ReverseSortedVec.step v

/-- One `SortedSet` call. -/
def SortedSet.step (v : List Int) : SetOp → List Int
  | SetOp.insert x => (SortedSet.insert v x).1
  | SetOp.remove_item x => (SortedSet.remove_item v x).1
  | SetOp.remove_index i => (SortedSet.remove_index v i).1
  | SetOp.pop => (SortedSet.pop v).1
  | SetOp.retain p => SortedSet.retain v p

/-- A sequence of `SortedSet` calls. -/
def SortedSet.run (v : List Int) (ops : List SetOp) : List Int :=
  ops.foldl SortedSet.step v

/-- One `ReverseSortedSet` call. -/
def ReverseSortedSet.step (v : List Int) : SetOp → List Int
  | SetOp.insert x => (ReverseSortedSet.insert v x).1
  | SetOp.remove_item x => (ReverseSortedSet.remove_item v x).1
  | SetOp.remove_index i => (ReverseSortedSet.remove_index v i).1
  | SetOp.pop => (ReverseSortedSet.pop v).1
  | SetOp.retain p => ReverseSortedSet.retain v p

/-- A sequence of `ReverseSortedSet` calls. -/
def ReverseSortedSet.run (v : List Int) (ops : List SetOp) : List Int :=
  ops.foldl ReverseSortedSet.step v

/-- The probe function `f` is monotone along `v`: once `Greater`, always
`Greater` further right; `Less` propagates left.  Holds for the probe of a
target against a suitably sorted `v`, and is what makes the binary-search
window invariants meaningful. -/
def BsMono (f : Int → Ordering) (v : List Int) : Prop :=
  ∀ j k, j ≤ k → k < v.length →
    (f (v.getD k 0) = Ordering.lt → f (v.getD j 0) = Ordering.lt) ∧
    (f (v.getD j 0) = Ordering.gt → f (v.getD k 0) = Ordering.gt)
theorem intCmp_eq_lt {a b : Int} : intCmp a b = Ordering.lt ↔ a < b := by
  unfold intCmp
  split
  · simp
    omega
  · split
    · simp
      omega
    · simp
      omega

theorem intCmp_eq_eq {a b : Int} : intCmp a b = Ordering.eq ↔ a = b := by
  unfold intCmp
  split
  · simp
    omega
  · split
    · simp
      omega
    · simp
      omega

theorem intCmp_eq_gt {a b : Int} : intCmp a b = Ordering.gt ↔ b < a := by
  unfold intCmp
  split
  · simp
    omega
  · split
    · simp
      omega
    · simp
      omega

theorem swap_eq_lt {o : Ordering} : o.swap = Ordering.lt ↔ o = Ordering.gt := by
  cases o <;> simp [Ordering.swap]

theorem swap_eq_eq {o : Ordering} : o.swap = Ordering.eq ↔ o = Ordering.eq := by
  cases o <;> simp [Ordering.swap]

theorem swap_eq_gt {o : Ordering} : o.swap = Ordering.gt ↔ o = Ordering.lt := by
  cases o <;> simp [Ordering.swap]


theorem bsLoop_ok_spec (f : Int → Ordering) (v : List Int) :
    ∀ left right, right ≤ v.length →
      ∀ i, bsLoop f v left right = Except.ok i →
        left ≤ i ∧ i < right ∧ f (v.getD i 0) = Ordering.eq := by
  intro left right
  induction left, right using bsLoop.induct f v with
  | case1 left right hlt hf ih =>
      intro hr i hrun
      rw [bsLoop] at hrun
      simp only [dif_pos hlt, hf] at hrun
      have h := ih hr i hrun
      exact ⟨by omega, h.2.1, h.2.2⟩
  | case2 left right hlt hf ih =>
      intro hr i hrun
      rw [bsLoop] at hrun
      simp only [dif_pos hlt, hf] at hrun
      have hmid : left + (right - left) / 2 ≤ v.length := by omega
      have h := ih hmid i hrun
      exact ⟨h.1, by omega, h.2.2⟩
  | case3 left right hlt hf =>
      intro hr i hrun
      rw [bsLoop] at hrun
      simp only [dif_pos hlt, hf] at hrun
      have : left + (right - left) / 2 = i := by
        cases hrun
        rfl
      subst this
      exact ⟨by omega, by omega, hf⟩
  | case4 left right hlt =>
      intro hr i hrun
      rw [bsLoop] at hrun
      simp only [dif_neg hlt] at hrun
      exact absurd hrun (by simp)

theorem bsLoop_err_le (f : Int → Ordering) (v : List Int) :
    ∀ left right, left ≤ right →
      ∀ i, bsLoop f v left right = Except.error i →
        left ≤ i ∧ i ≤ right := by
  intro left right
  induction left, right using bsLoop.induct f v with
  | case1 left right hlt hf ih =>
      intro hlr i hrun
      rw [bsLoop] at hrun
      simp only [dif_pos hlt, hf] at hrun
      have h := ih (by omega) i hrun
      omega
  | case2 left right hlt hf ih =>
      intro hlr i hrun
      rw [bsLoop] at hrun
      simp only [dif_pos hlt, hf] at hrun
      have h := ih (by omega) i hrun
      omega
  | case3 left right hlt hf =>
      intro hlr i hrun
      rw [bsLoop] at hrun
      simp only [dif_pos hlt, hf] at hrun
      exact absurd hrun (by simp)
  | case4 left right hlt =>
      intro hlr i hrun
      rw [bsLoop] at hrun
      simp only [dif_neg hlt, Except.error.injEq] at hrun
      omega

theorem bsLoop_err_spec (f : Int → Ordering) (v : List Int)
    (hmono : BsMono f v) :
    ∀ left right, left ≤ right → right ≤ v.length →
      (∀ j, j < left → f (v.getD j 0) = Ordering.lt) →
      (∀ j, right ≤ j → j < v.length → f (v.getD j 0) = Ordering.gt) →
      ∀ i, bsLoop f v left right = Except.error i →
        i ≤ v.length ∧ (∀ j, j < i → f (v.getD j 0) = Ordering.lt) ∧
          (∀ j, i ≤ j → j < v.length → f (v.getD j 0) = Ordering.gt) := by
  intro left right
  induction left, right using bsLoop.induct f v with
  | case1 left right hlt hf ih =>
      intro hlr hr hL hR i hrun
      rw [bsLoop] at hrun
      simp only [dif_pos hlt, hf] at hrun
      refine ih (by omega) hr ?_ hR i hrun
      intro j hj
      rcases Nat.lt_or_ge j left with hjl | hjl
      · exact hL j hjl
      · exact (hmono j (left + (right - left) / 2) (by omega) (by omega)).1 hf
  | case2 left right hlt hf ih =>
      intro hlr hr hL hR i hrun
      rw [bsLoop] at hrun
      simp only [dif_pos hlt, hf] at hrun
      refine ih (by omega) (by omega) hL ?_ i hrun
      intro j hj hjlen
      rcases Nat.lt_or_ge j right with hjr | hjr
      · exact (hmono (left + (right - left) / 2) j hj (by omega)).2 hf
      · exact hR j hjr hjlen
  | case3 left right hlt hf =>
      intro hlr hr hL hR i hrun
      rw [bsLoop] at hrun
      simp only [dif_pos hlt, hf] at hrun
      exact absurd hrun (by simp)
  | case4 left right hlt =>
      intro hlr hr hL hR i hrun
      rw [bsLoop] at hrun
      simp only [dif_neg hlt, Except.error.injEq] at hrun
      subst hrun
      exact ⟨by omega, fun j hj => hL j hj,
        fun j hj hjlen => hR j (by omega) hjlen⟩

theorem binarySearchBy_ok (f : Int → Ordering) (v : List Int) (i : Nat)
    (h : binarySearchBy f v = Except.ok i) :
    i < v.length ∧ f (v.getD i 0) = Ordering.eq := by
  have := bsLoop_ok_spec f v 0 v.length (Nat.le_refl _) i h
  exact ⟨this.2.1, this.2.2⟩

theorem binarySearchBy_err_le (f : Int → Ordering) (v : List Int) (i : Nat)
    (h : binarySearchBy f v = Except.error i) : i ≤ v.length := by
  have := bsLoop_err_le f v 0 v.length (Nat.zero_le _) i h
  exact this.2

theorem binarySearchBy_err (f : Int → Ordering) (v : List Int)
    (hmono : BsMono f v) (i : Nat)
    (h : binarySearchBy f v = Except.error i) :
    i ≤ v.length ∧ (∀ j, j < i → f (v.getD j 0) = Ordering.lt) ∧
      (∀ j, i ≤ j → j < v.length → f (v.getD j 0) = Ordering.gt) :=
  bsLoop_err_spec f v hmono 0 v.length (Nat.zero_le _) (Nat.le_refl _)
    (fun j hj => absurd hj (Nat.not_lt_zero j))
    (fun j hj hjlen => absurd hjlen (by omega)) i h

theorem sorted_getD_mono_le {v : List Int} (hs : v.Sorted (· ≤ ·))
    {j k : Nat} (hjk : j ≤ k) (hk : k < v.length) :
    v.getD j 0 ≤ v.getD k 0 := by
  rcases Nat.lt_or_ge j k with h | h
  · rw [List.getD_eq_getElem v 0 (by omega), List.getD_eq_getElem v 0 hk]
    exact List.pairwise_iff_getElem.mp hs j k (by omega) hk h
  · have : j = k := by omega
    subst this
    exact le_refl _

theorem sorted_getD_mono_ge {v : List Int} (hs : v.Sorted (· ≥ ·))
    {j k : Nat} (hjk : j ≤ k) (hk : k < v.length) :
    v.getD k 0 ≤ v.getD j 0 := by
  rcases Nat.lt_or_ge j k with h | h
  · rw [List.getD_eq_getElem v 0 hk, List.getD_eq_getElem v 0 (by omega)]
    exact List.pairwise_iff_getElem.mp hs j k (by omega) hk h
  · have : j = k := by omega
    subst this
    exact le_refl _

theorem bsMono_fwd {v : List Int} (x : Int) (hs : v.Sorted (· ≤ ·)) :
    BsMono (fun y => intCmp y x) v := by
  intro j k hjk hk
  constructor
  · intro h
    rw [intCmp_eq_lt] at h ⊢
    exact lt_of_le_of_lt (sorted_getD_mono_le hs hjk hk) h
  · intro h
    rw [intCmp_eq_gt] at h ⊢
    exact lt_of_lt_of_le h (sorted_getD_mono_le hs hjk hk)

theorem bsMono_rev {v : List Int} (x : Int) (hs : v.Sorted (· ≥ ·)) :
    BsMono (fun y => (intCmp y x).swap) v := by
  intro j k hjk hk
  constructor
  · intro h
    rw [swap_eq_lt, intCmp_eq_gt] at h ⊢
    exact lt_of_lt_of_le h (sorted_getD_mono_ge hs hjk hk)
  · intro h
    rw [swap_eq_gt, intCmp_eq_lt] at h ⊢
    exact lt_of_le_of_lt (sorted_getD_mono_ge hs hjk hk) h

theorem fwd_search_ok {v : List Int} {x : Int} {i : Nat}
    (h : SortedVec.binary_search v x = Except.ok i) :
    i < v.length ∧ v.getD i 0 = x := by
  have := binarySearchBy_ok (fun y => intCmp y x) v i h
  exact ⟨this.1, intCmp_eq_eq.mp this.2⟩

theorem fwd_search_err {v : List Int} {x : Int} {i : Nat}
    (hs : v.Sorted (· ≤ ·))
    (h : SortedVec.binary_search v x = Except.error i) :
    i ≤ v.length ∧ (∀ j, j < i → v.getD j 0 < x) ∧
      (∀ j, i ≤ j → j < v.length → x < v.getD j 0) := by
  have hb := binarySearchBy_err (fun y => intCmp y x) v (bsMono_fwd x hs) i h
  exact ⟨hb.1, fun j hj => intCmp_eq_lt.mp (hb.2.1 j hj),
    fun j hj hjl => intCmp_eq_gt.mp (hb.2.2 j hj hjl)⟩

theorem rev_search_ok {v : List Int} {x : Int} {i : Nat}
    (h : ReverseSortedVec.binary_search v x = Except.ok i) :
    i < v.length ∧ v.getD i 0 = x := by
  have := binarySearchBy_ok (fun y => (intCmp y x).swap) v i h
  exact ⟨this.1, intCmp_eq_eq.mp (swap_eq_eq.mp this.2)⟩

theorem rev_search_err {v : List Int} {x : Int} {i : Nat}
    (hs : v.Sorted (· ≥ ·))
    (h : ReverseSortedVec.binary_search v x = Except.error i) :
    i ≤ v.length ∧ (∀ j, j < i → x < v.getD j 0) ∧
      (∀ j, i ≤ j → j < v.length → v.getD j 0 < x) := by
  have hb := binarySearchBy_err (fun y => (intCmp y x).swap) v
    (bsMono_rev x hs) i h
  exact ⟨hb.1,
    fun j hj => intCmp_eq_gt.mp (swap_eq_lt.mp (hb.2.1 j hj)),
    fun j hj hjl => intCmp_eq_lt.mp (swap_eq_gt.mp (hb.2.2 j hj hjl))⟩

theorem fwd_search_not_mem {v : List Int} {x : Int} {i : Nat}
    (hs : v.Sorted (· ≤ ·))
    (h : SortedVec.binary_search v x = Except.error i) : x ∉ v := by
  intro hmem
  obtain ⟨n, hn, hget⟩ := List.mem_iff_getElem.mp hmem
  have hb := fwd_search_err hs h
  have hgd : v.getD n 0 = x := by
    rw [List.getD_eq_getElem v 0 hn]
    exact hget
  rcases Nat.lt_or_ge n i with hni | hni
  · have := hb.2.1 n hni
    omega
  · have := hb.2.2 n hni hn
    omega

theorem rev_search_not_mem {v : List Int} {x : Int} {i : Nat}
    (hs : v.Sorted (· ≥ ·))
    (h : ReverseSortedVec.binary_search v x = Except.error i) : x ∉ v := by
  intro hmem
  obtain ⟨n, hn, hget⟩ := List.mem_iff_getElem.mp hmem
  have hb := rev_search_err hs h
  have hgd : v.getD n 0 = x := by
    rw [List.getD_eq_getElem v 0 hn]
    exact hget
  rcases Nat.lt_or_ge n i with hni | hni
  · have := hb.2.1 n hni
    omega
  · have := hb.2.2 n hni hn
    omega

theorem fwd_search_index_le {v : List Int} (x : Int) :
    searchIndex (SortedVec.binary_search v x) ≤ v.length := by
  unfold searchIndex
  cases h : SortedVec.binary_search v x with
  | ok i => exact Nat.le_of_lt (fwd_search_ok h).1
  | error i => exact binarySearchBy_err_le _ v i h

theorem rev_search_index_le {v : List Int} (x : Int) :
    searchIndex (ReverseSortedVec.binary_search v x) ≤ v.length := by
  unfold searchIndex
  cases h : ReverseSortedVec.binary_search v x with
  | ok i => exact Nat.le_of_lt (rev_search_ok h).1
  | error i => exact binarySearchBy_err_le _ v i h

theorem insertIdx_perm (x : Int) :
    ∀ (i : Nat) (v : List Int), i ≤ v.length →
      (v.insertIdx i x).Perm (x :: v) := by
  intro i
  induction i with
  | zero => intro v _; exact List.Perm.refl _
  | succ i ih =>
      intro v hv
      cases v with
      | nil => simp at hv
      | cons a t =>
          simp only [List.insertIdx_succ_cons]
          exact ((ih t (by simpa using hv)).cons a).trans (List.Perm.swap x a t)

theorem pairwise_insertIdx {r : Int → Int → Prop} {x : Int} :
    ∀ (i : Nat) (v : List Int), v.Pairwise r → i ≤ v.length →
      (∀ j, j < i → r (v.getD j 0) x) →
      (∀ j, i ≤ j → j < v.length → r x (v.getD j 0)) →
      (v.insertIdx i x).Pairwise r := by
  intro i
  induction i with
  | zero =>
      intro v hp _ _ hR
      simp only [List.insertIdx_zero]
      rw [List.pairwise_cons]
      refine ⟨?_, hp⟩
      intro y hy
      obtain ⟨n, hn, hget⟩ := List.mem_iff_getElem.mp hy
      have := hR n (Nat.zero_le n) hn
      rwa [List.getD_eq_getElem v 0 hn, hget] at this
  | succ i ih =>
      intro v hp hv hL hR
      cases v with
      | nil => simp at hv
      | cons a t =>
          simp only [List.insertIdx_succ_cons]
          rw [List.pairwise_cons] at hp ⊢
          have hit : i ≤ t.length := by simpa using hv
          constructor
          · intro y hy
            rcases (List.mem_insertIdx hit).mp hy with hyx | hyt
            · subst hyx
              have := hL 0 (Nat.succ_pos i)
              simpa using this
            · exact hp.1 y hyt
          · refine ih t hp.2 hit ?_ ?_
            · intro j hj
              have := hL (j + 1) (by omega)
              simpa using this
            · intro j hj hjl
              have := hR (j + 1) (by omega) (by simpa using Nat.succ_lt_succ hjl)
              simpa using this

theorem getD_insertIdx_lt {v : List Int} {x : Int} {i j : Nat}
    (hj : j < i) (hjl : j < v.length) :
    (v.insertIdx i x).getD j 0 = v.getD j 0 := by
  have hj' : j < (v.insertIdx i x).length :=
    Nat.lt_of_lt_of_le hjl (List.length_le_length_insertIdx v x i)
  rw [List.getD_eq_getElem _ 0 hj', List.getD_eq_getElem v 0 hjl]
  exact List.getElem_insertIdx_of_lt v x i j hj hjl

theorem getD_insertIdx_self {v : List Int} {x : Int} {i : Nat}
    (hi : i ≤ v.length) :
    (v.insertIdx i x).getD i 0 = x := by
  have hi' : i < (v.insertIdx i x).length := by
    rw [List.length_insertIdx i v hi]
    omega
  rw [List.getD_eq_getElem _ 0 hi']
  exact List.getElem_insertIdx_self v x i hi

theorem getD_insertIdx_gt {v : List Int} {x : Int} {i j : Nat}
    (hi : i ≤ v.length) (hij : i < j) (hj : j < v.length + 1) :
    (v.insertIdx i x).getD j 0 = v.getD (j - 1) 0 := by
  have hj' : j < (v.insertIdx i x).length := by
    rw [List.length_insertIdx i v hi]
    omega
  obtain ⟨k, hk⟩ : ∃ k, j = i + k + 1 := ⟨j - i - 1, by omega⟩
  subst hk
  have hidx : i + k + 1 - 1 = i + k := by omega
  rw [hidx, List.getD_eq_getElem _ 0 hj', List.getD_eq_getElem v 0 (by omega)]
  exact List.getElem_insertIdx_add_succ v x i k (by omega)

theorem eraseIdx_cons_perm :
    ∀ (i : Nat) (v : List Int), i < v.length →
      v.Perm (v.getD i 0 :: v.eraseIdx i) := by
  intro i
  induction i with
  | zero =>
      intro v hv
      cases v with
      | nil => simp at hv
      | cons a t => simp
  | succ i ih =>
      intro v hv
      cases v with
      | nil => simp at hv
      | cons a t =>
          simp only [List.getD_cons_succ, List.eraseIdx_cons_succ]
          exact ((ih t (by simpa using hv)).cons a).trans
            (List.Perm.swap (t.getD i 0) a (t.eraseIdx i))

theorem sorted_lt_le {v : List Int} (hs : v.Sorted (· < ·)) :
    v.Sorted (· ≤ ·) :=
  hs.imp le_of_lt

theorem sorted_gt_ge {v : List Int} (hs : v.Sorted (· > ·)) :
    v.Sorted (· ≥ ·) :=
  hs.imp le_of_lt

theorem getD_mem {v : List Int} {i : Nat} (hi : i < v.length) :
    v.getD i 0 ∈ v := by
  rw [List.getD_eq_getElem v 0 hi]
  exact List.getElem_mem hi

theorem insert_sorted_fwd {v : List Int} (x : Int)
    (hs : v.Sorted (· ≤ ·)) :
    (SortedVec.insert v x).1.Sorted (· ≤ ·) := by
  show (v.insertIdx (searchIndex (SortedVec.binary_search v x)) x).Sorted
    (· ≤ ·)
  cases h : SortedVec.binary_search v x with
  | ok i =>
      simp only [searchIndex]
      obtain ⟨hlen, hval⟩ := fwd_search_ok h
      refine pairwise_insertIdx i v hs (by omega) ?_ ?_
      · intro j hj
        have := sorted_getD_mono_le hs (Nat.le_of_lt hj) hlen
        omega
      · intro j hij hjl
        have := sorted_getD_mono_le hs hij hjl
        omega
  | error i =>
      simp only [searchIndex]
      obtain ⟨hlen, hL, hR⟩ := fwd_search_err hs h
      refine pairwise_insertIdx i v hs hlen ?_ ?_
      · intro j hj
        exact le_of_lt (hL j hj)
      · intro j hij hjl
        exact le_of_lt (hR j hij hjl)

theorem insert_sorted_rev {v : List Int} (x : Int)
    (hs : v.Sorted (· ≥ ·)) :
    (ReverseSortedVec.insert v x).1.Sorted (· ≥ ·) := by
  show (v.insertIdx (searchIndex (ReverseSortedVec.binary_search v x))
    x).Sorted (· ≥ ·)
  cases h : ReverseSortedVec.binary_search v x with
  | ok i =>
      simp only [searchIndex]
      obtain ⟨hlen, hval⟩ := rev_search_ok h
      refine pairwise_insertIdx i v hs (by omega) ?_ ?_
      · intro j hj
        have := sorted_getD_mono_ge hs (Nat.le_of_lt hj) hlen
        simp only [ge_iff_le]
        omega
      · intro j hij hjl
        have := sorted_getD_mono_ge hs hij hjl
        simp only [ge_iff_le]
        omega
  | error i =>
      simp only [searchIndex]
      obtain ⟨hlen, hL, hR⟩ := rev_search_err hs h
      refine pairwise_insertIdx i v hs hlen ?_ ?_
      · intro j hj
        exact le_of_lt (hL j hj)
      · intro j hij hjl
        exact le_of_lt (hR j hij hjl)

theorem vecDedup_sublist : ∀ l : List Int, (vecDedup l).Sublist l := by
  intro l
  induction l using vecDedup.induct with
  | case1 => simp [vecDedup]
  | case2 a => simp [vecDedup]
  | case3 b rest ih =>
      rw [vecDedup, if_pos rfl]
      exact ih.trans (List.sublist_cons_self b (b :: rest))
  | case4 a b rest h ih =>
      rw [vecDedup, if_neg h]
      exact List.Sublist.cons₂ a ih

theorem vecDedupByKey_sublist (k : Int → Int) :
    ∀ l : List Int, (vecDedupByKey k l).Sublist l := by
  intro l
  induction l using vecDedupByKey.induct k with
  | case1 => simp [vecDedupByKey]
  | case2 a => simp [vecDedupByKey]
  | case3 a b rest h ih =>
      rw [vecDedupByKey, if_pos h]
      exact ih.trans (List.Sublist.cons₂ a (List.sublist_cons_self b rest))
  | case4 a b rest h ih =>
      rw [vecDedupByKey, if_neg h]
      exact List.Sublist.cons₂ a ih

theorem remove_item_fwd_pairwise {r : Int → Int → Prop} {v : List Int}
    {x : Int} (hp : v.Pairwise r) :
    (SortedVec.remove_item v x).1.Pairwise r := by
  unfold SortedVec.remove_item
  cases h : SortedVec.binary_search v x with
  | ok i => exact List.Pairwise.sublist (List.eraseIdx_sublist v i) hp
  | error i => exact hp

theorem remove_item_rev_pairwise {r : Int → Int → Prop} {v : List Int}
    {x : Int} (hp : v.Pairwise r) :
    (ReverseSortedVec.remove_item v x).1.Pairwise r := by
  unfold ReverseSortedVec.remove_item
  cases h : ReverseSortedVec.binary_search v x with
  | ok i => exact List.Pairwise.sublist (List.eraseIdx_sublist v i) hp
  | error i => exact hp

theorem remove_item_fwd_not_mem {v : List Int} {x : Int}
    (hs : v.Sorted (· ≤ ·)) (hnd : v.Nodup) :
    x ∉ (SortedVec.remove_item v x).1 := by
  unfold SortedVec.remove_item
  cases h : SortedVec.binary_search v x with
  | ok i =>
      obtain ⟨hlen, hval⟩ := fwd_search_ok h
      have hperm := eraseIdx_cons_perm i v hlen
      have hnd2 : (v.getD i 0 :: v.eraseIdx i).Nodup := hperm.nodup hnd
      rw [hval] at hnd2
      exact (List.nodup_cons.mp hnd2).1
  | error i => exact fwd_search_not_mem hs h

theorem remove_item_rev_not_mem {v : List Int} {x : Int}
    (hs : v.Sorted (· ≥ ·)) (hnd : v.Nodup) :
    x ∉ (ReverseSortedVec.remove_item v x).1 := by
  unfold ReverseSortedVec.remove_item
  cases h : ReverseSortedVec.binary_search v x with
  | ok i =>
      obtain ⟨hlen, hval⟩ := rev_search_ok h
      have hperm := eraseIdx_cons_perm i v hlen
      have hnd2 : (v.getD i 0 :: v.eraseIdx i).Nodup := hperm.nodup hnd
      rw [hval] at hnd2
      exact (List.nodup_cons.mp hnd2).1
  | error i => exact rev_search_not_mem hs h

theorem sorted_lt_nodup {v : List Int} (hs : v.Sorted (· < ·)) : v.Nodup :=
  hs.imp ne_of_lt

theorem sorted_gt_nodup {v : List Int} (hs : v.Sorted (· > ·)) : v.Nodup :=
  hs.imp (fun h => (ne_of_lt h).symm)

theorem insert_not_mem_sorted_lt {v : List Int} {x : Int}
    (hs : v.Sorted (· < ·)) (hnm : x ∉ v) :
    (SortedVec.insert v x).1.Sorted (· < ·) := by
  show (v.insertIdx (searchIndex (SortedVec.binary_search v x)) x).Sorted
    (· < ·)
  cases h : SortedVec.binary_search v x with
  | ok i =>
      obtain ⟨hlen, hval⟩ := fwd_search_ok h
      exact absurd (hval ▸ getD_mem hlen) hnm
  | error i =>
      simp only [searchIndex]
      obtain ⟨hlen, hL, hR⟩ := fwd_search_err (sorted_lt_le hs) h
      exact pairwise_insertIdx i v hs hlen hL hR

theorem insert_not_mem_sorted_gt {v : List Int} {x : Int}
    (hs : v.Sorted (· > ·)) (hnm : x ∉ v) :
    (ReverseSortedVec.insert v x).1.Sorted (· > ·) := by
  show (v.insertIdx (searchIndex (ReverseSortedVec.binary_search v x))
    x).Sorted (· > ·)
  cases h : ReverseSortedVec.binary_search v x with
  | ok i =>
      obtain ⟨hlen, hval⟩ := rev_search_ok h
      exact absurd (hval ▸ getD_mem hlen) hnm
  | error i =>
      simp only [searchIndex]
      obtain ⟨hlen, hL, hR⟩ := rev_search_err (sorted_gt_ge hs) h
      exact pairwise_insertIdx i v hs hlen hL hR

theorem set_insert_sorted_fwd {v : List Int} (x : Int)
    (hs : v.Sorted (· < ·)) :
    (SortedSet.insert v x).1.Sorted (· < ·) := by
  unfold SortedSet.insert
  have hs2 : (SortedVec.remove_item v x).1.Sorted (· < ·) :=
    remove_item_fwd_pairwise hs
  have hnm : x ∉ (SortedVec.remove_item v x).1 :=
    remove_item_fwd_not_mem (sorted_lt_le hs) (sorted_lt_nodup hs)
  exact insert_not_mem_sorted_lt hs2 hnm

theorem set_insert_sorted_rev {v : List Int} (x : Int)
    (hs : v.Sorted (· > ·)) :
    (ReverseSortedSet.insert v x).1.Sorted (· > ·) := by
  unfold ReverseSortedSet.insert
  have hs2 : (ReverseSortedVec.remove_item v x).1.Sorted (· > ·) :=
    remove_item_rev_pairwise hs
  have hnm : x ∉ (ReverseSortedVec.remove_item v x).1 :=
    remove_item_rev_not_mem (sorted_gt_ge hs) (sorted_gt_nodup hs)
  exact insert_not_mem_sorted_gt hs2 hnm

theorem chain'_conj {r s : Int → Int → Prop} :
    ∀ l : List Int, l.Chain' r → l.Chain' s →
      l.Chain' (fun a b => r a b ∧ s a b) := by
  intro l
  induction l with
  | nil => intro _ _; exact List.chain'_nil
  | cons a t ih =>
      cases t with
      | nil => intro _ _; simp
      | cons b t2 =>
          intro hr hsx
          rw [List.chain'_cons] at hr hsx ⊢
          exact ⟨⟨hr.1, hsx.1⟩, ih hr.2 hsx.2⟩

theorem strict_iff_fwd {v : List Int} :
    v.Sorted (· < ·) ↔ v.Sorted (· ≤ ·) ∧ v.Chain' (· ≠ ·) := by
  constructor
  · intro h
    exact ⟨sorted_lt_le h, h.chain'.imp (fun a b hab => ne_of_lt hab)⟩
  · rintro ⟨hle, hne⟩
    have hch : v.Chain' (· < ·) :=
      (chain'_conj v hle.chain' hne).imp
        (fun a b hab => lt_of_le_of_ne hab.1 hab.2)
    exact List.chain'_iff_pairwise.mp hch

theorem strict_iff_rev {v : List Int} :
    v.Sorted (· > ·) ↔ v.Sorted (· ≥ ·) ∧ v.Chain' (· ≠ ·) := by
  constructor
  · intro h
    exact ⟨sorted_gt_ge h, h.chain'.imp (fun a b hab => ne_of_gt hab)⟩
  · rintro ⟨hge, hne⟩
    have hch : v.Chain' (· > ·) :=
      (chain'_conj v hge.chain' hne).imp
        (fun a b hab => lt_of_le_of_ne hab.1 (Ne.symm hab.2))
    exact List.chain'_iff_pairwise.mp hch

theorem step_fwd_sorted (v : List Int) (op : VecOp)
    (hs : v.Sorted (· ≤ ·)) : (SortedVec.step v op).Sorted (· ≤ ·) := by
  cases op with
  | insert x => exact insert_sorted_fwd x hs
  | remove_item x => exact remove_item_fwd_pairwise hs
  | remove_index i =>
      exact List.Pairwise.sublist (List.eraseIdx_sublist v i) hs
  | pop => exact List.Pairwise.sublist (List.dropLast_sublist v) hs
  | dedup => exact List.Pairwise.sublist (vecDedup_sublist v) hs
  | dedup_by_key k =>
      exact List.Pairwise.sublist (vecDedupByKey_sublist k v) hs
  | retain p => exact List.Pairwise.sublist (List.filter_sublist v) hs

theorem step_rev_sorted (v : List Int) (op : VecOp)
    (hs : v.Sorted (· ≥ ·)) : (ReverseSortedVec.step v op).Sorted (· ≥ ·) := by
  cases op with
  | insert x => exact insert_sorted_rev x hs
  | remove_item x => exact remove_item_rev_pairwise hs
  | remove_index i =>
      exact List.Pairwise.sublist (List.eraseIdx_sublist v i) hs
  | pop => exact List.Pairwise.sublist (List.dropLast_sublist v) hs
  | dedup => exact List.Pairwise.sublist (vecDedup_sublist v) hs
  | dedup_by_key k =>
      exact List.Pairwise.sublist (vecDedupByKey_sublist k v) hs
  | retain p => exact List.Pairwise.sublist (List.filter_sublist v) hs

theorem step_set_fwd_sorted (v : List Int) (op : SetOp)
    (hs : v.Sorted (· < ·)) : (SortedSet.step v op).Sorted (· < ·) := by
  cases op with
  | insert x => exact set_insert_sorted_fwd x hs
  | remove_item x => exact remove_item_fwd_pairwise hs
  | remove_index i =>
      exact List.Pairwise.sublist (List.eraseIdx_sublist v i) hs
  | pop => exact List.Pairwise.sublist (List.dropLast_sublist v) hs
  | retain p => exact List.Pairwise.sublist (List.filter_sublist v) hs

theorem step_set_rev_sorted (v : List Int) (op : SetOp)
    (hs : v.Sorted (· > ·)) : (ReverseSortedSet.step v op).Sorted (· > ·) := by
  cases op with
  | insert x => exact set_insert_sorted_rev x hs
  | remove_item x => exact remove_item_rev_pairwise hs
  | remove_index i =>
      exact List.Pairwise.sublist (List.eraseIdx_sublist v i) hs
  | pop => exact List.Pairwise.sublist (List.dropLast_sublist v) hs
  | retain p => exact List.Pairwise.sublist (List.filter_sublist v) hs

theorem run_fwd_sorted (ops : List VecOp) :
    ∀ v : List Int, v.Sorted (· ≤ ·) →
      (SortedVec.run v ops).Sorted (· ≤ ·) := by
  induction ops with
  | nil => intro v hs; exact hs
  | cons op rest ih => intro v hs; exact ih _ (step_fwd_sorted v op hs)

theorem run_rev_sorted (ops : List VecOp) :
    ∀ v : List Int, v.Sorted (· ≥ ·) →
      (ReverseSortedVec.run v ops).Sorted (· ≥ ·) := by
  induction ops with
  | nil => intro v hs; exact hs
  | cons op rest ih => intro v hs; exact ih _ (step_rev_sorted v op hs)

theorem run_set_fwd_sorted (ops : List SetOp) :
    ∀ v : List Int, v.Sorted (· < ·) →
      (SortedSet.run v ops).Sorted (· < ·) := by
  induction ops with
  | nil => intro v hs; exact hs
  | cons op rest ih => intro v hs; exact ih _ (step_set_fwd_sorted v op hs)

theorem run_set_rev_sorted (ops : List SetOp) :
    ∀ v : List Int, v.Sorted (· > ·) →
      (ReverseSortedSet.run v ops).Sorted (· > ·) := by
  induction ops with
  | nil => intro v hs; exact hs
  | cons op rest ih => intro v hs; exact ih _ (step_set_rev_sorted v op hs)

/-- Claim C1: for every forward container (`SortedVec` / `SortedSet`) and
every finite sequence of its mutating calls (`insert`, `remove_item`,
`remove_index`, `pop`, and, where exposed, `dedup`, `dedup_by_key`,
`retain`) starting from a state satisfying the invariant, the backing
sequence is sorted non-decreasing after every call; for the reverse
variants it is non-increasing; for the unique variants additionally no two
adjacent elements compare equal after every call.  (Quantifying over all
op lists covers every prefix, i.e. the state after every call.) -/
theorem claim_C1 (v : List Int) :
    (∀ ops : List VecOp, v.Sorted (· ≤ ·) →
      (SortedVec.run v ops).Sorted (· ≤ ·)) ∧
    (∀ ops : List VecOp, v.Sorted (· ≥ ·) →
      (ReverseSortedVec.run v ops).Sorted (· ≥ ·)) ∧
    (∀ ops : List SetOp, v.Sorted (· ≤ ·) → v.Chain' (· ≠ ·) →
      (SortedSet.run v ops).Sorted (· ≤ ·) ∧
        (SortedSet.run v ops).Chain' (· ≠ ·)) ∧
    (∀ ops : List SetOp, v.Sorted (· ≥ ·) → v.Chain' (· ≠ ·) →
      (ReverseSortedSet.run v ops).Sorted (· ≥ ·) ∧
        (ReverseSortedSet.run v ops).Chain' (· ≠ ·)) := by
  refine ⟨fun ops hs => run_fwd_sorted ops v hs,
    fun ops hs => run_rev_sorted ops v hs, ?_, ?_⟩
  · intro ops hs hne
    exact strict_iff_fwd.mp
      (run_set_fwd_sorted ops v (strict_iff_fwd.mpr ⟨hs, hne⟩))
  · intro ops hs hne
    exact strict_iff_rev.mp
      (run_set_rev_sorted ops v (strict_iff_rev.mpr ⟨hs, hne⟩))

/-- Witness for C1 at concrete states and call sequences. -/
theorem claim_C1_witness :
    (SortedVec.run [1, 2, 2, 5] [VecOp.insert 3, VecOp.dedup]).Sorted
      (· ≤ ·) ∧
    (ReverseSortedVec.run [5, 2, 1] [VecOp.insert 3]).Sorted (· ≥ ·) ∧
    (SortedSet.run [1, 2, 5] [SetOp.insert 2]).Sorted (· ≤ ·) ∧
    (SortedSet.run [1, 2, 5] [SetOp.insert 2]).Chain' (· ≠ ·) ∧
    (ReverseSortedSet.run [5, 2, 1] [SetOp.insert 3]).Sorted (· ≥ ·) ∧
    (ReverseSortedSet.run [5, 2, 1] [SetOp.insert 3]).Chain' (· ≠ ·) := by
  have h3 := (claim_C1 [1, 2, 5]).2.2.1 [SetOp.insert 2]
    (by decide) (by simp)
  have h4 := (claim_C1 [5, 2, 1]).2.2.2 [SetOp.insert 3]
    (by decide) (by simp)
  exact ⟨(claim_C1 [1, 2, 2, 5]).1 [VecOp.insert 3, VecOp.dedup] (by decide),
    (claim_C1 [5, 2, 1]).2.1 [VecOp.insert 3] (by decide),
    h3.1, h3.2, h4.1, h4.2⟩

theorem insert_bounds_fwd {v : List Int} {x : Int} (hs : v.Sorted (· ≤ ·)) :
    ∀ i, i = searchIndex (SortedVec.binary_search v x) →
      (∀ j, j < i → (v.insertIdx i x).getD j 0 ≤ x) ∧
      (∀ j, i ≤ j → j < v.length + 1 →
        x ≤ (v.insertIdx i x).getD j 0) := by
  intro i hi
  cases h : SortedVec.binary_search v x with
  | ok i0 =>
      rw [h] at hi
      simp only [searchIndex] at hi
      subst hi
      obtain ⟨hlen, hval⟩ := fwd_search_ok h
      constructor
      · intro j hj
        rw [getD_insertIdx_lt hj (by omega)]
        have := sorted_getD_mono_le hs (Nat.le_of_lt hj) hlen
        omega
      · intro j hij hjl
        rcases Nat.eq_or_lt_of_le hij with heq | hlt
        · subst heq
          rw [getD_insertIdx_self (by omega)]
        · rw [getD_insertIdx_gt (by omega) hlt (by omega)]
          have := sorted_getD_mono_le hs (by omega : i ≤ j - 1) (by omega)
          omega
  | error i0 =>
      rw [h] at hi
      simp only [searchIndex] at hi
      subst hi
      obtain ⟨hlen, hL, hR⟩ := fwd_search_err hs h
      constructor
      · intro j hj
        rw [getD_insertIdx_lt hj (by omega)]
        exact le_of_lt (hL j hj)
      · intro j hij hjl
        rcases Nat.eq_or_lt_of_le hij with heq | hlt
        · subst heq
          rw [getD_insertIdx_self (by omega)]
        · rw [getD_insertIdx_gt (by omega) hlt (by omega)]
          exact le_of_lt (hR (j - 1) (by omega) (by omega))

theorem insert_bounds_rev {v : List Int} {x : Int} (hs : v.Sorted (· ≥ ·)) :
    ∀ i, i = searchIndex (ReverseSortedVec.binary_search v x) →
      (∀ j, j < i → x ≤ (v.insertIdx i x).getD j 0) ∧
      (∀ j, i ≤ j → j < v.length + 1 →
        (v.insertIdx i x).getD j 0 ≤ x) := by
  intro i hi
  cases h : ReverseSortedVec.binary_search v x with
  | ok i0 =>
      rw [h] at hi
      simp only [searchIndex] at hi
      subst hi
      obtain ⟨hlen, hval⟩ := rev_search_ok h
      constructor
      · intro j hj
        rw [getD_insertIdx_lt hj (by omega)]
        have := sorted_getD_mono_ge hs (Nat.le_of_lt hj) hlen
        omega
      · intro j hij hjl
        rcases Nat.eq_or_lt_of_le hij with heq | hlt
        · subst heq
          rw [getD_insertIdx_self (by omega)]
        · rw [getD_insertIdx_gt (by omega) hlt (by omega)]
          have := sorted_getD_mono_ge hs (by omega : i ≤ j - 1) (by omega)
          omega
  | error i0 =>
      rw [h] at hi
      simp only [searchIndex] at hi
      subst hi
      obtain ⟨hlen, hL, hR⟩ := rev_search_err hs h
      constructor
      · intro j hj
        rw [getD_insertIdx_lt hj (by omega)]
        exact le_of_lt (hL j hj)
      · intro j hij hjl
        rcases Nat.eq_or_lt_of_le hij with heq | hlt
        · subst heq
          rw [getD_insertIdx_self (by omega)]
        · rw [getD_insertIdx_gt (by omega) hlt (by omega)]
          exact le_of_lt (hR (j - 1) (by omega) (by omega))

/-- Claim C3: on a sorted container, `insert x` returns an index `i` such
that in the post-insertion sequence every element before `i` is `≤ x` and
every element at `i` or after is `≥ x` under the container's comparator
(for the reverse container the comparator is inverted, so the inequalities
flip). -/
theorem claim_C3 (v : List Int) (x : Int) :
    (v.Sorted (· ≤ ·) →
      (∀ j, j < (SortedVec.insert v x).2 →
        (SortedVec.insert v x).1.getD j 0 ≤ x) ∧
      (∀ j, (SortedVec.insert v x).2 ≤ j →
        j < (SortedVec.insert v x).1.length →
        x ≤ (SortedVec.insert v x).1.getD j 0)) ∧
    (v.Sorted (· ≥ ·) →
      (∀ j, j < (ReverseSortedVec.insert v x).2 →
        x ≤ (ReverseSortedVec.insert v x).1.getD j 0) ∧
      (∀ j, (ReverseSortedVec.insert v x).2 ≤ j →
        j < (ReverseSortedVec.insert v x).1.length →
        (ReverseSortedVec.insert v x).1.getD j 0 ≤ x)) := by
  constructor
  · intro hs
    have hb := insert_bounds_fwd hs
      (searchIndex (SortedVec.binary_search v x)) rfl
    have hlen : (SortedVec.insert v x).1.length = v.length + 1 :=
      List.length_insertIdx _ v (fwd_search_index_le x)
    exact ⟨hb.1, fun j hij hjl => hb.2 j hij (by omega)⟩
  · intro hs
    have hb := insert_bounds_rev hs
      (searchIndex (ReverseSortedVec.binary_search v x)) rfl
    have hlen : (ReverseSortedVec.insert v x).1.length = v.length + 1 :=
      List.length_insertIdx _ v (rev_search_index_le x)
    exact ⟨hb.1, fun j hij hjl => hb.2 j hij (by omega)⟩

/-- Witness for C3 at `v = [1, 3, 5]` (and the reverse of it), `x = 4`. -/
theorem claim_C3_witness :
    (∀ j, j < (SortedVec.insert [1, 3, 5] 4).2 →
      (SortedVec.insert [1, 3, 5] 4).1.getD j 0 ≤ 4) ∧
    (∀ j, (SortedVec.insert [1, 3, 5] 4).2 ≤ j →
      j < (SortedVec.insert [1, 3, 5] 4).1.length →
      (4 : Int) ≤ (SortedVec.insert [1, 3, 5] 4).1.getD j 0) ∧
    (∀ j, j < (ReverseSortedVec.insert [5, 3, 1] 4).2 →
      (4 : Int) ≤ (ReverseSortedVec.insert [5, 3, 1] 4).1.getD j 0) ∧
    (∀ j, (ReverseSortedVec.insert [5, 3, 1] 4).2 ≤ j →
      j < (ReverseSortedVec.insert [5, 3, 1] 4).1.length →
      (ReverseSortedVec.insert [5, 3, 1] 4).1.getD j 0 ≤ 4) := by
  have h1 := (claim_C3 [1, 3, 5] 4).1 (by decide)
  have h2 := (claim_C3 [5, 3, 1] 4).2 (by decide)
  exact ⟨h1.1, h1.2, h2.1, h2.2⟩

/-- Claim C10: on any `SortedVec` / `ReverseSortedVec` state, `insert x`
grows the length by exactly one and the new contents are, as a multiset,
the old contents plus `x` — nothing is dropped or overwritten even when
duplicates of `x` are present. -/
theorem claim_C10 (v : List Int) (x : Int) :
    (SortedVec.insert v x).1.length = v.length + 1 ∧
    (SortedVec.insert v x).1.Perm (x :: v) ∧
    (ReverseSortedVec.insert v x).1.length = v.length + 1 ∧
    (ReverseSortedVec.insert v x).1.Perm (x :: v) :=
  ⟨List.length_insertIdx _ v (fwd_search_index_le x),
   insertIdx_perm x _ v (fwd_search_index_le x),
   List.length_insertIdx _ v (rev_search_index_le x),
   insertIdx_perm x _ v (rev_search_index_le x)⟩

/-- Claim C8: on a sorted container, `remove_item (&x)` returns `Some`
with a removed element equal to `x` when one is present (length shrinking
by one), and returns `None` leaving the container untouched when no equal
element is present. -/
theorem claim_C8 (v : List Int) (x : Int) :
    (v.Sorted (· ≤ ·) →
      (x ∈ v → (SortedVec.remove_item v x).2 = some x ∧
        (SortedVec.remove_item v x).1.length + 1 = v.length) ∧
      (x ∉ v → SortedVec.remove_item v x = (v, none))) ∧
    (v.Sorted (· ≥ ·) →
      (x ∈ v → (ReverseSortedVec.remove_item v x).2 = some x ∧
        (ReverseSortedVec.remove_item v x).1.length + 1 = v.length) ∧
      (x ∉ v → ReverseSortedVec.remove_item v x = (v, none))) := by
  constructor
  · intro hs
    constructor
    · intro hmem
      cases h : SortedVec.binary_search v x with
      | ok i =>
          obtain ⟨hlen, hval⟩ := fwd_search_ok h
          unfold SortedVec.remove_item
          rw [h]
          constructor
          · show some (v.getD i 0) = some x
            rw [hval]
          · show (v.eraseIdx i).length + 1 = v.length
            rw [List.length_eraseIdx v i]
            simp only [if_pos hlen]
            omega
      | error i => exact absurd hmem (fwd_search_not_mem hs h)
    · intro hnm
      cases h : SortedVec.binary_search v x with
      | ok i =>
          obtain ⟨hlen, hval⟩ := fwd_search_ok h
          exact absurd (hval ▸ getD_mem hlen) hnm
      | error i =>
          unfold SortedVec.remove_item
          rw [h]
  · intro hs
    constructor
    · intro hmem
      cases h : ReverseSortedVec.binary_search v x with
      | ok i =>
          obtain ⟨hlen, hval⟩ := rev_search_ok h
          unfold ReverseSortedVec.remove_item
          rw [h]
          constructor
          · show some (v.getD i 0) = some x
            rw [hval]
          · show (v.eraseIdx i).length + 1 = v.length
            rw [List.length_eraseIdx v i]
            simp only [if_pos hlen]
            omega
      | error i => exact absurd hmem (rev_search_not_mem hs h)
    · intro hnm
      cases h : ReverseSortedVec.binary_search v x with
      | ok i =>
          obtain ⟨hlen, hval⟩ := rev_search_ok h
          exact absurd (hval ▸ getD_mem hlen) hnm
      | error i =>
          unfold ReverseSortedVec.remove_item
          rw [h]

/-- Witness for C8: removing `3` from `[1, 3, 5]` (present) and removing
`4` (absent), forward and reverse. -/
theorem claim_C8_witness :
    (SortedVec.remove_item [1, 3, 5] 3).2 = some 3 ∧
    (SortedVec.remove_item [1, 3, 5] 3).1.length + 1 =
      ([1, 3, 5] : List Int).length ∧
    SortedVec.remove_item [1, 3, 5] 4 = ([1, 3, 5], none) ∧
    (ReverseSortedVec.remove_item [5, 3, 1] 3).2 = some 3 ∧
    ReverseSortedVec.remove_item [5, 3, 1] 4 = ([5, 3, 1], none) := by
  have h1 := (claim_C8 [1, 3, 5] 3).1 (by decide)
  have h2 := (claim_C8 [1, 3, 5] 4).1 (by decide)
  have h3 := (claim_C8 [5, 3, 1] 3).2 (by decide)
  have h4 := (claim_C8 [5, 3, 1] 4).2 (by decide)
  exact ⟨(h1.1 (by decide)).1, (h1.1 (by decide)).2,
    h2.2 (by decide), (h3.1 (by decide)).1, h4.2 (by decide)⟩

theorem from_unsorted_sorted (v : List Int) :
    (SortedVec.from_unsorted v).Sorted (· ≤ ·) := by
  have h := @List.sorted_mergeSort Int (fun a b => decide (a ≤ b))
    (by
      intro a b c h1 h2
      simp only [decide_eq_true_iff] at h1 h2 ⊢
      omega)
    (by
      intro a b
      simp only [Bool.or_eq_true, decide_eq_true_iff]
      omega) v
  exact h.imp (fun hab => by simpa using hab)

theorem from_unsorted_perm (v : List Int) :
    (SortedVec.from_unsorted v).Perm v :=
  List.mergeSort_perm v _

theorem revLe_iff {a b : Int} :
    decide ((intCmp a b).swap ≠ Ordering.gt) = true ↔ b ≤ a := by
  rw [decide_eq_true_iff]
  constructor
  · intro h
    by_contra hc
    exact h (swap_eq_gt.mpr (intCmp_eq_lt.mpr (by omega)))
  · intro h hcon
    have := intCmp_eq_lt.mp (swap_eq_gt.mp hcon)
    omega

theorem rev_from_unsorted_sorted (v : List Int) :
    (ReverseSortedVec.from_unsorted v).Sorted (· ≥ ·) := by
  have h := @List.sorted_mergeSort Int
    (fun a b => decide ((intCmp a b).swap ≠ Ordering.gt))
    (by
      intro a b c h1 h2
      rw [revLe_iff] at h1 h2 ⊢
      omega)
    (by
      intro a b
      rw [Bool.or_eq_true, revLe_iff, revLe_iff]
      omega) v
  exact h.imp (fun hab => by
    have := revLe_iff.mp hab
    simpa using this)

theorem rev_from_unsorted_perm (v : List Int) :
    (ReverseSortedVec.from_unsorted v).Perm v :=
  List.mergeSort_perm v _

theorem vecDedup_sorted_lt {l : List Int} (hs : l.Sorted (· ≤ ·)) :
    (vecDedup l).Sorted (· < ·) := by
  induction l using vecDedup.induct with
  | case1 => simp [vecDedup]
  | case2 a => simp [vecDedup]
  | case3 b rest ih =>
      rw [vecDedup, if_pos rfl]
      exact ih (List.Pairwise.sublist
        (List.sublist_cons_self b (b :: rest)) hs)
  | case4 a b rest hne ih =>
      rw [vecDedup, if_neg hne]
      rw [List.sorted_cons] at hs ⊢
      refine ⟨?_, ih hs.2⟩
      intro y hy
      have hymem : y ∈ b :: rest := (vecDedup_sublist (b :: rest)).subset hy
      have hab : a ≤ b := hs.1 b (List.mem_cons_self b rest)
      rcases List.mem_cons.mp hymem with hyb | hyrest
      · subst hyb
        omega
      · have hay : a ≤ y := hs.1 y (List.mem_cons.mpr (Or.inr hyrest))
        have hby : b ≤ y := (List.sorted_cons.mp hs.2).1 y hyrest
        omega

theorem vecDedup_sorted_gt {l : List Int} (hs : l.Sorted (· ≥ ·)) :
    (vecDedup l).Sorted (· > ·) := by
  induction l using vecDedup.induct with
  | case1 => simp [vecDedup]
  | case2 a => simp [vecDedup]
  | case3 b rest ih =>
      rw [vecDedup, if_pos rfl]
      exact ih (List.Pairwise.sublist
        (List.sublist_cons_self b (b :: rest)) hs)
  | case4 a b rest hne ih =>
      rw [vecDedup, if_neg hne]
      rw [List.sorted_cons] at hs ⊢
      refine ⟨?_, ih hs.2⟩
      intro y hy
      have hymem : y ∈ b :: rest := (vecDedup_sublist (b :: rest)).subset hy
      have hab : b ≤ a := hs.1 b (List.mem_cons_self b rest)
      rcases List.mem_cons.mp hymem with hyb | hyrest
      · subst hyb
        simp only [gt_iff_lt]
        omega
      · have hay : y ≤ a := hs.1 y (List.mem_cons.mpr (Or.inr hyrest))
        have hby : y ≤ b := (List.sorted_cons.mp hs.2).1 y hyrest
        simp only [gt_iff_lt]
        omega

/-- Claim C2: `from_unsorted(v)` produces exactly the ascending sort of `v`
for `SortedVec`, the descending sort for `ReverseSortedVec`, and for the
unique variants the dedup of that sort.  Stated against any `s` that is a
sorted permutation of `v` (on `Int` such an `s` is unique). -/
theorem claim_C2 (v s : List Int) :
    (s.Perm v → s.Sorted (· ≤ ·) → SortedVec.from_unsorted v = s) ∧
    (s.Perm v → s.Sorted (· ≥ ·) → ReverseSortedVec.from_unsorted v = s) ∧
    (s.Perm v → s.Sorted (· ≤ ·) → SortedSet.from_unsorted v = vecDedup s) ∧
    (s.Perm v → s.Sorted (· ≥ ·) →
      ReverseSortedSet.from_unsorted v = vecDedup s) := by
  have hgeAnti : IsAntisymm Int (· ≥ ·) :=
    ⟨fun a b h1 h2 => le_antisymm h2 h1⟩
  have hfwd : ∀ _hp : s.Perm v, s.Sorted (· ≤ ·) →
      SortedVec.from_unsorted v = s := by
    intro hp hss
    exact List.eq_of_perm_of_sorted
      ((from_unsorted_perm v).trans hp.symm) (from_unsorted_sorted v) hss
  have hrev : ∀ _hp : s.Perm v, s.Sorted (· ≥ ·) →
      ReverseSortedVec.from_unsorted v = s := by
    intro hp hss
    exact @List.eq_of_perm_of_sorted Int (· ≥ ·) hgeAnti _ _
      ((rev_from_unsorted_perm v).trans hp.symm)
      (rev_from_unsorted_sorted v) hss
  exact ⟨hfwd, hrev,
    fun hp hss => congrArg vecDedup (hfwd hp hss),
    fun hp hss => congrArg vecDedup (hrev hp hss)⟩

/-- Witness for C2 on the spec's concrete scenario:
`from_unsorted([5, -10, 99, -11, 2, 17, 10])`. -/
theorem claim_C2_witness :
    SortedVec.from_unsorted [5, -10, 99, -11, 2, 17, 10] =
      [-11, -10, 2, 5, 10, 17, 99] ∧
    ReverseSortedVec.from_unsorted [5, -10, 99, -11, 2, 17, 10] =
      [99, 17, 10, 5, 2, -10, -11] ∧
    SortedSet.from_unsorted [5, -10, 99, -11, 2, 17, 10] =
      vecDedup [-11, -10, 2, 5, 10, 17, 99] ∧
    ReverseSortedSet.from_unsorted [5, -10, 99, -11, 2, 17, 10] =
      vecDedup [99, 17, 10, 5, 2, -10, -11] := by
  have h1 := claim_C2 [5, -10, 99, -11, 2, 17, 10]
    [-11, -10, 2, 5, 10, 17, 99]
  have h2 := claim_C2 [5, -10, 99, -11, 2, 17, 10]
    [99, 17, 10, 5, 2, -10, -11]
  exact ⟨h1.1 (by decide) (by decide), h2.2.1 (by decide) (by decide),
    h1.2.2.1 (by decide) (by decide), h2.2.2.2 (by decide) (by decide)⟩

/-- Claim C6: `mutate_vec` re-establishes sortedness (and, for the unique
variants, dedupedness) no matter what the closure did to the backing
vector, and hands the closure's result back to the caller. -/
theorem claim_C6 {O : Type} (v : List Int) (f : List Int → List Int × O) :
    (SortedVec.mutate_vec v f).1.Sorted (· ≤ ·) ∧
    (SortedVec.mutate_vec v f).2 = (f v).2 ∧
    (SortedSet.mutate_vec v f).1.Sorted (· ≤ ·) ∧
    (SortedSet.mutate_vec v f).1.Chain' (· ≠ ·) ∧
    (SortedSet.mutate_vec v f).2 = (f v).2 ∧
    (ReverseSortedVec.mutate_vec v f).1.Sorted (· ≥ ·) ∧
    (ReverseSortedVec.mutate_vec v f).2 = (f v).2 ∧
    (ReverseSortedSet.mutate_vec v f).1.Sorted (· ≥ ·) ∧
    (ReverseSortedSet.mutate_vec v f).1.Chain' (· ≠ ·) ∧
    (ReverseSortedSet.mutate_vec v f).2 = (f v).2 := by
  have hset : (vecDedup (SortedVec.mutate_vec v f).1).Sorted (· < ·) :=
    vecDedup_sorted_lt (from_unsorted_sorted (f v).1)
  have hrset : (vecDedup (ReverseSortedVec.mutate_vec v f).1).Sorted
      (· > ·) :=
    vecDedup_sorted_gt (rev_from_unsorted_sorted (f v).1)
  refine ⟨from_unsorted_sorted (f v).1, rfl, ?_, ?_, rfl,
    rev_from_unsorted_sorted (f v).1, rfl, ?_, ?_, rfl⟩
  · exact (strict_iff_fwd.mp hset).1
  · exact (strict_iff_fwd.mp hset).2
  · exact (strict_iff_rev.mp hrset).1
  · exact (strict_iff_rev.mp hrset).2

theorem isSortedAsc_iff_chain :
    ∀ l : List Int, isSortedAsc l = true ↔ l.Chain' (· ≤ ·) := by
  intro l
  induction l using isSortedAsc.induct with
  | case1 => simp [isSortedAsc]
  | case2 a => simp [isSortedAsc]
  | case3 a b rest ih =>
      rw [isSortedAsc, Bool.and_eq_true, decide_eq_true_iff, ih,
        List.chain'_cons]

theorem isSortedDesc_iff_chain :
    ∀ l : List Int, isSortedDesc l = true ↔ l.Chain' (· ≥ ·) := by
  intro l
  induction l using isSortedDesc.induct with
  | case1 => simp [isSortedDesc]
  | case2 a => simp [isSortedDesc]
  | case3 a b rest ih =>
      rw [isSortedDesc, Bool.and_eq_true, decide_eq_true_iff, ih,
        List.chain'_cons]

theorem isSortedAsc_iff {l : List Int} :
    isSortedAsc l = true ↔ l.Sorted (· ≤ ·) := by
  rw [isSortedAsc_iff_chain l, List.chain'_iff_pairwise]
  exact Iff.rfl

theorem isSortedDesc_iff {l : List Int} :
    isSortedDesc l = true ↔ l.Sorted (· ≥ ·) := by
  rw [isSortedDesc_iff_chain l, List.chain'_iff_pairwise]
  exact Iff.rfl

/-- Claim C7: the deserializer errors exactly on input sequences that are
not sorted in the container's direction; a sorted input is accepted and
becomes the backing sequence exactly as given. -/
theorem claim_C7 (v : List Int) :
    ((∃ e, parse_vec v = Except.error e) ↔ ¬ v.Sorted (· ≤ ·)) ∧
    (v.Sorted (· ≤ ·) → parse_vec v = Except.ok v) ∧
    ((∃ e, parse_reverse_vec v = Except.error e) ↔ ¬ v.Sorted (· ≥ ·)) ∧
    (v.Sorted (· ≥ ·) → parse_reverse_vec v = Except.ok v) := by
  refine ⟨?_, ?_, ?_, ?_⟩
  · constructor
    · rintro ⟨e, he⟩ hsorted
      unfold parse_vec at he
      rw [isSortedAsc_iff.mpr hsorted] at he
      simp at he
    · intro hns
      refine ⟨"input sequence is not sorted", ?_⟩
      unfold parse_vec
      have hfalse : isSortedAsc v = false := by
        rcases Bool.eq_false_or_eq_true (isSortedAsc v) with h | h
        · exact absurd (isSortedAsc_iff.mp h) hns
        · exact h
      rw [hfalse]
      rfl
  · intro hsorted
    unfold parse_vec
    rw [isSortedAsc_iff.mpr hsorted]
    rfl
  · constructor
    · rintro ⟨e, he⟩ hsorted
      unfold parse_reverse_vec at he
      rw [isSortedDesc_iff.mpr hsorted] at he
      simp at he
    · intro hns
      refine ⟨"input sequence is not reverse sorted", ?_⟩
      unfold parse_reverse_vec
      have hfalse : isSortedDesc v = false := by
        rcases Bool.eq_false_or_eq_true (isSortedDesc v) with h | h
        · exact absurd (isSortedDesc_iff.mp h) hns
        · exact h
      rw [hfalse]
      rfl
  · intro hsorted
    unfold parse_reverse_vec
    rw [isSortedDesc_iff.mpr hsorted]
    rfl

/-- Witness for C7 on the spec's concrete scenario: the sorted text
`[-11, -10, 2, 5, 10, 17, 99]` deserializes, the rotated unsorted text
fails. -/
theorem claim_C7_witness :
    parse_vec [-11, -10, 2, 5, 10, 17, 99] =
      Except.ok [-11, -10, 2, 5, 10, 17, 99] ∧
    (∃ e, parse_vec [99, -11, -10, 2, 5, 10, 17] = Except.error e) ∧
    parse_reverse_vec [99, 17, 10, 5, 2, -10, -11] =
      Except.ok [99, 17, 10, 5, 2, -10, -11] ∧
    (∃ e, parse_reverse_vec [-11, 99, 17, 10, 5, 2, -10] =
      Except.error e) := by
  refine ⟨(claim_C7 [-11, -10, 2, 5, 10, 17, 99]).2.1 (by decide),
    (claim_C7 [99, -11, -10, 2, 5, 10, 17]).1.mpr (by decide),
    (claim_C7 [99, 17, 10, 5, 2, -10, -11]).2.2.2 (by decide),
    (claim_C7 [-11, 99, 17, 10, 5, 2, -10]).2.2.1.mpr (by decide)⟩

/-- Claim C4: on a sorted container, `find_or_insert x` returns `Found i`
with the container unchanged when an element equal to `x` sits at index
`i`; otherwise it inserts `x` at the returned position `i` and returns
`Inserted i`; and on a unique container an already-present value never
increases the length. -/
theorem claim_C4 (v : List Int) (x : Int) :
    (v.Sorted (· ≤ ·) →
      (∀ i, (SortedVec.find_or_insert v x).2 = FindOrInsert.Found i →
        (SortedVec.find_or_insert v x).1 = v ∧ i < v.length ∧
          v.getD i 0 = x) ∧
      (∀ i, (SortedVec.find_or_insert v x).2 = FindOrInsert.Inserted i →
        x ∉ v ∧ (SortedVec.find_or_insert v x).1 = v.insertIdx i x ∧
          i ≤ v.length) ∧
      (x ∈ v → ∃ i, (SortedVec.find_or_insert v x).2 =
        FindOrInsert.Found i)) ∧
    (v.Sorted (· ≥ ·) →
      (∀ i, (ReverseSortedVec.find_or_insert v x).2 =
          FindOrInsert.Found i →
        (ReverseSortedVec.find_or_insert v x).1 = v ∧ i < v.length ∧
          v.getD i 0 = x) ∧
      (∀ i, (ReverseSortedVec.find_or_insert v x).2 =
          FindOrInsert.Inserted i →
        x ∉ v ∧ (ReverseSortedVec.find_or_insert v x).1 = v.insertIdx i x ∧
          i ≤ v.length) ∧
      (x ∈ v → ∃ i, (ReverseSortedVec.find_or_insert v x).2 =
        FindOrInsert.Found i)) ∧
    (v.Sorted (· ≤ ·) → v.Chain' (· ≠ ·) → x ∈ v →
      (SortedSet.find_or_insert v x).1.length = v.length) ∧
    (v.Sorted (· ≥ ·) → v.Chain' (· ≠ ·) → x ∈ v →
      (ReverseSortedSet.find_or_insert v x).1.length = v.length) := by
  have hfwd : v.Sorted (· ≤ ·) →
      (∀ i, (SortedVec.find_or_insert v x).2 = FindOrInsert.Found i →
        (SortedVec.find_or_insert v x).1 = v ∧ i < v.length ∧
          v.getD i 0 = x) ∧
      (∀ i, (SortedVec.find_or_insert v x).2 = FindOrInsert.Inserted i →
        x ∉ v ∧ (SortedVec.find_or_insert v x).1 = v.insertIdx i x ∧
          i ≤ v.length) ∧
      (x ∈ v → ∃ i, (SortedVec.find_or_insert v x).2 =
        FindOrInsert.Found i) := by
    intro hs
    unfold SortedVec.find_or_insert
    cases h : SortedVec.binary_search v x with
    | ok i0 =>
        obtain ⟨hlen, hval⟩ := fwd_search_ok h
        refine ⟨?_, ?_, ?_⟩
        · intro i hi
          cases hi
          exact ⟨rfl, hlen, hval⟩
        · intro i hi
          cases hi
        · intro _
          exact ⟨i0, rfl⟩
    | error i0 =>
        have hnm := fwd_search_not_mem hs h
        refine ⟨?_, ?_, ?_⟩
        · intro i hi
          cases hi
        · intro i hi
          cases hi
          exact ⟨hnm, rfl, binarySearchBy_err_le _ v i0 h⟩
        · intro hmem
          exact absurd hmem hnm
  have hrev : v.Sorted (· ≥ ·) →
      (∀ i, (ReverseSortedVec.find_or_insert v x).2 =
          FindOrInsert.Found i →
        (ReverseSortedVec.find_or_insert v x).1 = v ∧ i < v.length ∧
          v.getD i 0 = x) ∧
      (∀ i, (ReverseSortedVec.find_or_insert v x).2 =
          FindOrInsert.Inserted i →
        x ∉ v ∧ (ReverseSortedVec.find_or_insert v x).1 = v.insertIdx i x ∧
          i ≤ v.length) ∧
      (x ∈ v → ∃ i, (ReverseSortedVec.find_or_insert v x).2 =
        FindOrInsert.Found i) := by
    intro hs
    unfold ReverseSortedVec.find_or_insert
    cases h : ReverseSortedVec.binary_search v x with
    | ok i0 =>
        obtain ⟨hlen, hval⟩ := rev_search_ok h
        refine ⟨?_, ?_, ?_⟩
        · intro i hi
          cases hi
          exact ⟨rfl, hlen, hval⟩
        · intro i hi
          cases hi
        · intro _
          exact ⟨i0, rfl⟩
    | error i0 =>
        have hnm := rev_search_not_mem hs h
        refine ⟨?_, ?_, ?_⟩
        · intro i hi
          cases hi
        · intro i hi
          cases hi
          exact ⟨hnm, rfl, binarySearchBy_err_le _ v i0 h⟩
        · intro hmem
          exact absurd hmem hnm
  refine ⟨hfwd, hrev, ?_, ?_⟩
  · intro hs _ hmem
    obtain ⟨i, hi⟩ := (hfwd hs).2.2 hmem
    have := ((hfwd hs).1 i hi).1
    show (SortedVec.find_or_insert v x).1.length = v.length
    rw [this]
  · intro hs _ hmem
    obtain ⟨i, hi⟩ := (hrev hs).2.2 hmem
    have := ((hrev hs).1 i hi).1
    show (ReverseSortedVec.find_or_insert v x).1.length = v.length
    rw [this]

/-- Witness for C4: the tests' scenario `find_or_insert 4` on `[3, 4, 5]`
(present) and `find_or_insert 6` on `[6, 5, 4, 3]` reverse-sorted. -/
theorem claim_C4_witness :
    ((SortedVec.find_or_insert [3, 4, 5] 4).1 = [3, 4, 5] ∧
      (1 : Nat) < ([3, 4, 5] : List Int).length ∧
      ([3, 4, 5] : List Int).getD 1 0 = 4) ∧
    (SortedSet.find_or_insert [3, 4, 5] 4).1.length =
      ([3, 4, 5] : List Int).length ∧
    ((4 : Int) ∉ ([3, 5] : List Int) ∧
      (SortedVec.find_or_insert [3, 5] 4).1 =
        ([3, 5] : List Int).insertIdx 1 4 ∧ (1 : Nat) ≤ 2) ∧
    ((ReverseSortedVec.find_or_insert [5, 4, 3] 6).2 =
      FindOrInsert.Inserted 0 →
      (6 : Int) ∉ ([5, 4, 3] : List Int)) := by
  have h1 := (claim_C4 [3, 4, 5] 4).1 (by decide)
  have h2 := (claim_C4 [3, 4, 5] 4).2.2.1 (by decide) (by simp)
    (by decide)
  have h3 := (claim_C4 [3, 5] 4).1 (by decide)
  have h4 := (claim_C4 [5, 4, 3] 6).2.1 (by decide)
  exact ⟨h1.1 1 (by
      simp [SortedVec.find_or_insert, SortedVec.binary_search,
        binarySearchBy, bsLoop, intCmp]), h2, h3.2.1 1 (by
      simp [SortedVec.find_or_insert, SortedVec.binary_search,
        binarySearchBy, bsLoop, intCmp]),
    fun hins => (h4.2.1 0 hins).1⟩

/-- Claim C5: on a unique container, `insert x` removes any existing
element equal to `x` and then inserts, so the new contents are (up to
order) `x` together with the old contents minus one occurrence of `x`;
the length is unchanged when `x` was present and grows by one when it was
not. -/
theorem claim_C5 (v : List Int) (x : Int) :
    (v.Sorted (· ≤ ·) → v.Chain' (· ≠ ·) →
      (SortedSet.insert v x).1.Perm (x :: v.erase x) ∧
      (x ∈ v → (SortedSet.insert v x).1.length = v.length) ∧
      (x ∉ v → (SortedSet.insert v x).1.length = v.length + 1)) ∧
    (v.Sorted (· ≥ ·) → v.Chain' (· ≠ ·) →
      (ReverseSortedSet.insert v x).1.Perm (x :: v.erase x) ∧
      (x ∈ v → (ReverseSortedSet.insert v x).1.length = v.length) ∧
      (x ∉ v → (ReverseSortedSet.insert v x).1.length = v.length + 1)) := by
  constructor
  · intro hs _
    have hperm2 : (SortedSet.insert v x).1.Perm
        (x :: (SortedVec.remove_item v x).1) :=
      insertIdx_perm x _ (SortedVec.remove_item v x).1
        (fwd_search_index_le x)
    cases h : SortedVec.binary_search v x with
    | ok i =>
        obtain ⟨hlen, hval⟩ := fwd_search_ok h
        have hmem : x ∈ v := hval ▸ getD_mem hlen
        have hv2 : (SortedVec.remove_item v x).1 = v.eraseIdx i := by
          unfold SortedVec.remove_item
          rw [h]
        have hvperm : v.Perm (x :: v.eraseIdx i) := by
          have := eraseIdx_cons_perm i v hlen
          rwa [hval] at this
        have herase : (v.eraseIdx i).Perm (v.erase x) :=
          (hvperm.symm.trans (List.perm_cons_erase hmem)).cons_inv
        have hfinal : (SortedSet.insert v x).1.Perm (x :: v.erase x) := by
          rw [hv2] at hperm2
          exact hperm2.trans (herase.cons x)
        refine ⟨hfinal, fun _ => ?_, fun hnm => absurd hmem hnm⟩
        have hlen1 := hfinal.length_eq
        have hlen2 := (List.perm_cons_erase hmem).length_eq
        simp only [List.length_cons] at hlen1 hlen2
        omega
    | error i =>
        have hnm : x ∉ v := fwd_search_not_mem hs h
        have hv2 : (SortedVec.remove_item v x).1 = v := by
          unfold SortedVec.remove_item
          rw [h]
        rw [hv2] at hperm2
        have herase : v.erase x = v := List.erase_of_not_mem hnm
        refine ⟨by rw [herase]; exact hperm2,
          fun hmem => absurd hmem hnm, fun _ => ?_⟩
        have := hperm2.length_eq
        simp only [List.length_cons] at this
        omega
  · intro hs _
    have hperm2 : (ReverseSortedSet.insert v x).1.Perm
        (x :: (ReverseSortedVec.remove_item v x).1) :=
      insertIdx_perm x _ (ReverseSortedVec.remove_item v x).1
        (rev_search_index_le x)
    cases h : ReverseSortedVec.binary_search v x with
    | ok i =>
        obtain ⟨hlen, hval⟩ := rev_search_ok h
        have hmem : x ∈ v := hval ▸ getD_mem hlen
        have hv2 : (ReverseSortedVec.remove_item v x).1 = v.eraseIdx i := by
          unfold ReverseSortedVec.remove_item
          rw [h]
        have hvperm : v.Perm (x :: v.eraseIdx i) := by
          have := eraseIdx_cons_perm i v hlen
          rwa [hval] at this
        have herase : (v.eraseIdx i).Perm (v.erase x) :=
          (hvperm.symm.trans (List.perm_cons_erase hmem)).cons_inv
        have hfinal : (ReverseSortedSet.insert v x).1.Perm
            (x :: v.erase x) := by
          rw [hv2] at hperm2
          exact hperm2.trans (herase.cons x)
        refine ⟨hfinal, fun _ => ?_, fun hnm => absurd hmem hnm⟩
        have hlen1 := hfinal.length_eq
        have hlen2 := (List.perm_cons_erase hmem).length_eq
        simp only [List.length_cons] at hlen1 hlen2
        omega
    | error i =>
        have hnm : x ∉ v := rev_search_not_mem hs h
        have hv2 : (ReverseSortedVec.remove_item v x).1 = v := by
          unfold ReverseSortedVec.remove_item
          rw [h]
        rw [hv2] at hperm2
        have herase : v.erase x = v := List.erase_of_not_mem hnm
        refine ⟨by rw [herase]; exact hperm2,
          fun hmem => absurd hmem hnm, fun _ => ?_⟩
        have := hperm2.length_eq
        simp only [List.length_cons] at this
        omega

/-- Witness for C5: re-inserting the present value `4` into `[3, 4, 5]`
(length stays 3) and inserting the absent value `7` (length becomes 4);
mirrored on the reverse set. -/
theorem claim_C5_witness :
    (SortedSet.insert [3, 4, 5] 4).1.Perm
      (4 :: ([3, 4, 5] : List Int).erase 4) ∧
    (SortedSet.insert [3, 4, 5] 4).1.length = 3 ∧
    (SortedSet.insert [3, 4, 5] 7).1.length = 4 ∧
    (ReverseSortedSet.insert [5, 4, 3] 4).1.length = 3 ∧
    (ReverseSortedSet.insert [5, 4, 3] 7).1.length = 4 := by
  have h1 := (claim_C5 [3, 4, 5] 4).1 (by decide) (by simp)
  have h2 := (claim_C5 [3, 4, 5] 7).1 (by decide) (by simp)
  have h3 := (claim_C5 [5, 4, 3] 4).2 (by decide) (by simp)
  have h4 := (claim_C5 [5, 4, 3] 7).2 (by decide) (by simp)
  exact ⟨h1.1, h1.2.1 (by decide), h2.2.2 (by decide),
    h3.2.1 (by decide), h4.2.2 (by decide)⟩

theorem asc_le_eq_cmpLe :
    (fun a b : Int => decide (a ≤ b)) =
      (fun a b : Int => decide (intCmp a b ≠ Ordering.gt)) := by
  funext a b
  rw [decide_eq_decide]
  rw [Ne, intCmp_eq_gt]
  omega

/-- Claim C9: the reverse containers are the forward algorithms driven by
the inverted comparator `revIntCmp`: every listed operation of
`ReverseSortedVec` / `ReverseSortedSet` coincides with the comparator-
generic container at `revIntCmp`, and the forward containers coincide
with it at `intCmp` — identical index semantics, tie-breaking and
`mutate_vec` re-sort behaviour. -/
theorem claim_C9 {O : Type} (v : List Int) (x : Int)
    (f : List Int → List Int × O) :
    SortedVec.binary_search v x = CmpGeneric.binary_search intCmp v x ∧
    SortedVec.insert v x = CmpGeneric.insert intCmp v x ∧
    SortedVec.find_or_insert v x = CmpGeneric.find_or_insert intCmp v x ∧
    SortedVec.remove_item v x = CmpGeneric.remove_item intCmp v x ∧
    SortedVec.from_unsorted v = CmpGeneric.from_unsorted intCmp v ∧
    SortedVec.mutate_vec v f = CmpGeneric.mutate_vec intCmp v f ∧
    SortedSet.insert v x = CmpGeneric.set_insert intCmp v x ∧
    SortedSet.from_unsorted v = CmpGeneric.set_from_unsorted intCmp v ∧
    SortedSet.mutate_vec v f = CmpGeneric.set_mutate_vec intCmp v f ∧
    ReverseSortedVec.binary_search v x =
      CmpGeneric.binary_search revIntCmp v x ∧
    ReverseSortedVec.insert v x = CmpGeneric.insert revIntCmp v x ∧
    ReverseSortedVec.find_or_insert v x =
      CmpGeneric.find_or_insert revIntCmp v x ∧
    ReverseSortedVec.remove_item v x =
      CmpGeneric.remove_item revIntCmp v x ∧
    ReverseSortedVec.from_unsorted v =
      CmpGeneric.from_unsorted revIntCmp v ∧
    ReverseSortedVec.mutate_vec v f = CmpGeneric.mutate_vec revIntCmp v f ∧
    ReverseSortedSet.insert v x = CmpGeneric.set_insert revIntCmp v x ∧
    ReverseSortedSet.from_unsorted v =
      CmpGeneric.set_from_unsorted revIntCmp v ∧
    ReverseSortedSet.mutate_vec v f =
      CmpGeneric.set_mutate_vec revIntCmp v f := by
  have hfu : SortedVec.from_unsorted v =
      CmpGeneric.from_unsorted intCmp v := by
    show v.mergeSort (fun a b => decide (a ≤ b)) =
      v.mergeSort (fun a b => decide (intCmp a b ≠ Ordering.gt))
    rw [asc_le_eq_cmpLe]
  have hmut : SortedVec.mutate_vec v f =
      CmpGeneric.mutate_vec intCmp v f := by
    show ((f v).1.mergeSort (fun a b => decide (a ≤ b)), (f v).2) =
      ((f v).1.mergeSort (fun a b => decide (intCmp a b ≠ Ordering.gt)),
        (f v).2)
    rw [asc_le_eq_cmpLe]
  refine ⟨rfl, rfl, rfl, rfl, hfu, hmut, rfl, ?_, ?_,
    rfl, rfl, rfl, rfl, rfl, rfl, rfl, rfl, rfl⟩
  · show vecDedup (SortedVec.from_unsorted v) =
      vecDedup (CmpGeneric.from_unsorted intCmp v)
    rw [hfu]
  · show (vecDedup (SortedVec.mutate_vec v f).1,
        (SortedVec.mutate_vec v f).2) =
      (vecDedup (CmpGeneric.mutate_vec intCmp v f).1,
        (CmpGeneric.mutate_vec intCmp v f).2)
    rw [hmut]
